import Mathlib

/-!
Verification of the subotai DHT core: routing table, key-value storage and
reception pipeline, embedded shallowly from `src/routing/mod.rs`,
`src/storage/mod.rs` and `src/node/receptions.rs`.

The 160-bit identifier type (`SubotaiHash`, in the repository's `hash`
module, which is not among the given sources) is modelled from the spec as a
natural number below `2 ^ 160`: XOR is `Nat.xor`, `height` is the position
of the most significant set bit (`Nat.log2`), `ones` / `zeroes` enumerate
set / cleared bit positions in ascending order over the 160-bit domain.
-/

set_option maxRecDepth 100000

namespace Subotai

/-- Hashes are 160-bit unsigned integers; we model them as `Nat` and carry
the bound `h < 2 ^ HASH_SIZE` as a hypothesis where it matters. -/
abbrev Hash := Nat

def HASH_SIZE : Nat := 160

/-- Fuel-bounded base-2 logarithm, agreeing with `Nat.log2` on inputs
below `2 ^ fuel` (see `log2fuel_eq_log2`). A structural recursion is used
so that concrete hashes evaluate inside the kernel. -/
def log2fuel : Nat → Nat → Nat
  | 0, _ => 0
  | fuel + 1, n => if 2 ≤ n then log2fuel fuel (n / 2) + 1 else 0

/-- Modelled from the spec: `SubotaiHash::height` of the missing `hash`
module. The spec defines the height of a hash as one plus the position of
its highest set bit (zero or undefined for the zero hash); the routing code
uses the returned `Option<usize>` directly as a bucket index, so the code's
`height()` is `some` of the 0-based position of the most significant set
bit, and `none` for the zero hash. -/
def height (h : Hash) : Option Nat :=
  if h = 0 then none else some (log2fuel HASH_SIZE h)

/-- Modelled from the spec: the spec-level `height()` of §4.4, one plus the
position of the most significant set bit, and 0 for the zero hash. -/
def heightSpec (h : Hash) : Nat :=
  if h = 0 then 0 else log2fuel HASH_SIZE h + 1

/-- Modelled from the spec: `SubotaiHash::ones`, the ascending positions of
set bits of a hash (domain `0..160`). -/
def ones (h : Hash) : List Nat :=
  (List.range HASH_SIZE).filter (fun i => h.testBit i)

/-- Modelled from the spec: `SubotaiHash::zeroes`, the ascending positions
of cleared bits of a hash (domain `0..160`). -/
def zeroes (h : Hash) : List Nat :=
  (List.range HASH_SIZE).filter (fun i => !h.testBit i)

/-! ### Storage (`src/storage/mod.rs`)

Timestamps (`time::SteadyTime`) are modelled as integers counting hours, so
`time::Duration::hours(n)` is just `n`. The `HashMap` is modelled as an
association list; `hmFind` mirrors `HashMap::get` and `hmInsert` mirrors
`HashMap::insert` (returning the previous value when the key pre-existed).
-/

def MAX_STORAGE : Nat := 10000

def BASE_EXPIRATION_TIME_HRS : Int := 24

def EXPIRATION_DISTANCE_THRESHOLD : Nat := 5

inductive StorageEntry where
  | Value (h : Hash)
  | Blob (bytes : List Nat)
deriving DecidableEq, Repr

structure EntryAndExpiration where
  entry : StorageEntry
  expiration : Int
deriving DecidableEq, Repr

structure Storage where
  entries_and_expirations : List (Hash × EntryAndExpiration)
  parent_id : Hash
deriving DecidableEq, Repr

inductive StoreResult where
  | Success
  | AlreadyPresent
  | StorageFull
deriving DecidableEq, Repr

/-- Association-list model of `HashMap::get`. -/
def hmFind (l : List (Hash × EntryAndExpiration)) (k : Hash) :
    Option EntryAndExpiration :=
  (l.find? (fun p => decide (p.1 = k))).map (fun p => p.2)

/-- Association-list model of `HashMap::insert`: overwrites in place when
the key pre-exists (returning the previous value), appends otherwise. -/
def hmInsert (l : List (Hash × EntryAndExpiration)) (k : Hash)
    (v : EntryAndExpiration) :
    List (Hash × EntryAndExpiration) × Option EntryAndExpiration :=
  match l.find? (fun p => decide (p.1 = k)) with
  | some p => (l.map (fun q => if q.1 = k then (k, v) else q), some p.2)
  | none => (l ++ [(k, v)], none)

def Storage.new (parent_id : Hash) : Storage :=
  { entries_and_expirations := [], parent_id := parent_id }

def Storage.len (s : Storage) : Nat :=
  s.entries_and_expirations.length

def Storage.is_empty (s : Storage) : Bool :=
  s.entries_and_expirations.isEmpty

/-- Embedding of `Storage::store`. The wall clock read by
`time::SteadyTime::now()` is passed explicitly as `now`; the function
returns the updated storage together with the `StoreResult`. Note the
source computes `expiration = now + 24h` independently of the key, and
checks capacity before the insert. -/
def Storage.store (s : Storage) (key : Hash) (entry : StorageEntry)
    (now : Int) : Storage × StoreResult :=
  let expiration := now + BASE_EXPIRATION_TIME_HRS
  let entry_and_expiration : EntryAndExpiration :=
    { entry := entry, expiration := expiration }
  if MAX_STORAGE ≤ s.entries_and_expirations.length then
    (s, StoreResult.StorageFull)
  else
    match hmInsert s.entries_and_expirations key entry_and_expiration with
    | (l, none) => ({ s with entries_and_expirations := l }, StoreResult.Success)
    | (l, some _) => ({ s with entries_and_expirations := l }, StoreResult.AlreadyPresent)

/-- Embedding of `Storage::get`: a clone of the entry whenever the key is
present in the map. The source does not consult the stored expiration or
the clock. -/
def Storage.get (s : Storage) (key : Hash) : Option StorageEntry :=
  match s.entries_and_expirations.find? (fun p => decide (p.1 = key)) with
  | some p => some p.2.entry
  | none => none

/-! ### Routing table (`src/routing/mod.rs`)

Buckets (`VecDeque<NodeInfo>`) are lists with the oldest entry at the head
(`pop_front` drops the head, `push_back` appends at the end). The table's
fixed array of 160 buckets is a list of length `HASH_SIZE`; the interior
mutability of the Rust structure becomes explicit state passing. Socket
addresses are opaque to the core and modelled as naturals. -/

def ALPHA : Nat := 3

def K : Nat := 20

def BUCKET_DEPTH : Nat := K

structure NodeInfo where
  id : Hash
  address : Nat
deriving DecidableEq, Repr

inductive LookupResult where
  | Myself
  | Found (info : NodeInfo)
  | ClosestNodes (nodes : List NodeInfo)
  | Nothing
deriving DecidableEq, Repr

structure EvictionConflict where
  evicted : NodeInfo
  inserted : NodeInfo
deriving DecidableEq, Repr

structure Table where
  buckets : List (List NodeInfo)
  conflicts : List EvictionConflict
  parent_id : Hash
deriving DecidableEq, Repr

def Table.new (parent_id : Hash) : Table :=
  { buckets := (List.range HASH_SIZE).map (fun _ => []),
    conflicts := [],
    parent_id := parent_id }

/-- Embedding of `Table::bucket_for_node`: the bucket index is the height
of the XOR distance to the parent id, `none` when the id equals the
parent (distance zero). -/
def Table.bucket_for_node (t : Table) (id : Hash) : Option Nat :=
  height (t.parent_id ^^^ id)

/-- Embedding of `Table::insert_node`: retain entries with a different id,
then either evict the front entry (recording an `EvictionConflict`) when
the bucket is at `BUCKET_DEPTH`, or simply push at the back. The branch
pairing a bucket of length `BUCKET_DEPTH = 20` with the empty list is
unreachable (the source's `pop_front().unwrap()` cannot fail there). -/
def Table.insert_node (t : Table) (info : NodeInfo) : Table :=
  match t.bucket_for_node info.id with
  | none => t
  | some index =>
    let entries := (t.buckets.getD index []).filter
      (fun stored_info => decide (info.id ≠ stored_info.id))
    if entries.length = BUCKET_DEPTH then
      match entries with
      | evicted :: rest =>
        { t with
          buckets := t.buckets.set index (rest ++ [info]),
          conflicts := t.conflicts ++ [{ evicted := evicted, inserted := info }] }
      | [] => t
    else
      { t with buckets := t.buckets.set index (entries ++ [info]) }

/-- Embedding of `Table::specific_node`: linear scan of the bucket the id
belongs to. -/
def Table.specific_node (t : Table) (id : Hash) : Option NodeInfo :=
  match t.bucket_for_node id with
  | some index => (t.buckets.getD index []).find? (fun info => decide (id = info.id))
  | none => none

/-- Ascending-distance key order used by `sort_by_key(|info| &info.id ^ id)`. -/
def distLe (id : Hash) (a b : NodeInfo) : Prop :=
  a.id ^^^ id ≤ b.id ^^^ id

instance (id : Hash) : DecidableRel (distLe id) :=
  fun a b => inferInstanceAs (Decidable (_ ≤ _))

instance (id : Hash) : IsTotal NodeInfo (distLe id) :=
  ⟨fun a b => Nat.le_total (a.id ^^^ id) (b.id ^^^ id)⟩

instance (id : Hash) : IsTrans NodeInfo (distLe id) :=
  ⟨fun _ _ _ hab hbc => Nat.le_trans hab hbc⟩

/-- Blacklist retention step of the bounce lookup:
`nodes_from_bucket.retain(|node| !blacklist.contains(&node.id))`. -/
def applyBlacklist (blacklist : Option (List Hash)) (nodes : List NodeInfo) :
    List NodeInfo :=
  match blacklist with
  | some bl => nodes.filter (fun node => !bl.contains node.id)
  | none => nodes

/-- Bucket visiting order of the bounce lookup: positions of set bits of
the distance in descending order, then positions of cleared bits in
ascending order. -/
def lookupOrder (distance : Hash) : List Nat :=
  (ones distance).reverse ++ zeroes distance

/-- Loop body of `Table::closest_n_nodes_to`, one iteration per visited
bucket index. `Vec::with_capacity(n)` gives the result capacity `n`, so
`space_left` is `n - closest.len()` and the loop breaks once the length
reaches `n`. The stable `sort_by_key(|info| &info.id ^ id)` is modelled by
the stable `List.insertionSort` under the same ascending-distance key
order. -/
def bounce (buckets : List (List NodeInfo)) (id : Hash) (n : Nat)
    (blacklist : Option (List Hash)) :
    List Nat → List NodeInfo → List NodeInfo
  | [], closest => closest
  | index :: rest, closest =>
    let entries := buckets.getD index []
    if entries.isEmpty then
      bounce buckets id n blacklist rest closest
    else
      let nodes_from_bucket := applyBlacklist blacklist entries
      let sorted := nodes_from_bucket.insertionSort (distLe id)
      let appended := closest ++ sorted.take (n - closest.length)
      if appended.length = n then appended
      else bounce buckets id n blacklist rest appended

/-- Embedding of `Table::closest_n_nodes_to` (the bounce lookup). -/
def Table.closest_n_nodes_to (t : Table) (id : Hash) (n : Nat)
    (blacklist : Option (List Hash)) : List NodeInfo :=
  bounce t.buckets id n blacklist (lookupOrder (t.parent_id ^^^ id)) []

/-- Embedding of `Table::lookup`. -/
def Table.lookup (t : Table) (id : Hash) (n : Nat)
    (blacklist : Option (List Hash)) : LookupResult :=
  if id = t.parent_id then LookupResult.Myself
  else
    match t.specific_node id with
    | some info => LookupResult.Found info
    | none =>
      let closest := t.closest_n_nodes_to id n blacklist
      if closest.isEmpty then LookupResult.Nothing
      else LookupResult.ClosestNodes closest

/-- Embedding of `Table::revert_conflict`. The source unwraps the result of
`find` on the bucket; `none` models the panic of that `unwrap` when the
inserted peer is no longer present. `mem::replace` swaps the first entry
whose id matches the conflict's inserted id for the evicted peer. -/
def Table.revert_conflict (t : Table) (conflict : EvictionConflict) :
    Option Table :=
  match t.bucket_for_node conflict.inserted.id with
  | none => some t
  | some index =>
    let entries := t.buckets.getD index []
    match entries.findIdx? (fun info => decide (conflict.inserted.id = info.id)) with
    | none => none
    | some k => some { t with buckets := t.buckets.set index (entries.set k conflict.evicted) }

/-- All peers stored in the table, bucket by bucket. -/
def storedNodes (t : Table) : List NodeInfo :=
  t.buckets.flatten

/-- Well-formedness of a table state, satisfied by `Table.new` and
preserved by `insert_node`: 160 buckets, a valid parent id, and every peer
sits in the bucket indexed by the most significant set bit of its distance
to the parent, with per-bucket distinct ids and the depth bound. -/
def WF (t : Table) : Prop :=
  t.buckets.length = HASH_SIZE ∧
  t.parent_id < 2 ^ HASH_SIZE ∧
  ∀ i, i < HASH_SIZE →
    (∀ info ∈ t.buckets.getD i [],
        info.id < 2 ^ HASH_SIZE ∧
        t.parent_id ^^^ info.id ≠ 0 ∧
        log2fuel HASH_SIZE (t.parent_id ^^^ info.id) = i) ∧
    (t.buckets.getD i []).Pairwise (fun a b => a.id ≠ b.id) ∧
    (t.buckets.getD i []).length ≤ BUCKET_DEPTH

instance (t : Table) : Decidable (WF t) := by
  unfold WF
  infer_instance

/-! ### Reception pipeline (`src/node/receptions.rs`)

The `rpc` and `node::resources` modules are not among the given sources;
`Rpc`, `Kind` and `Update` are modelled from the spec (§3): an RPC exposes
a `sender_id` and a `kind` with the nine listed variants, and an update is
`RpcReceived(Rpc)`, `Tick` or `Shutdown`.

The broadcast channel consumed through `bus::BusIntoIter` is modelled as a
finite list of updates, each paired with its arrival timestamp (integer
hours, as for storage): an exhausted list corresponds to a disconnected
channel, whose blocking iterator keeps answering `None`. The wall clock
read by `time::SteadyTime::now()` at the top of each loop iteration is
approximated by the timestamp of the event about to be read. -/

inductive Kind where
  | Ping
  | PingResponse
  | Store (payload : Hash)
  | FindNode (target : Hash)
  | FindNodeResponse (nodes : List NodeInfo)
  | FindValue (target : Hash)
  | FindValueResponse (payload : Hash)
  | Bootstrap
  | BootstrapResponse (nodes : List NodeInfo)
deriving DecidableEq, Repr

structure Rpc where
  sender_id : Hash
  kind : Kind
deriving DecidableEq, Repr

inductive Update where
  | RpcReceived (rpc : Rpc)
  | Tick
  | Shutdown
deriving DecidableEq, Repr

inductive KindFilter where
  | Ping
  | PingResponse
  | Store
  | FindNode
  | FindNodeResponse
  | FindValue
  | FindValueResponse
  | Bootstrap
  | BootstrapResponse
deriving DecidableEq, Repr

/-- Kind filtering match of `Receptions::next`: each `rpc.kind` variant is
rejected unless the configured filter is the corresponding variant. -/
def kindAccepts (kind_filter : KindFilter) (kind : Kind) : Bool :=
  match kind with
  | Kind.Ping => decide (kind_filter = KindFilter.Ping)
  | Kind.PingResponse => decide (kind_filter = KindFilter.PingResponse)
  | Kind.Store _ => decide (kind_filter = KindFilter.Store)
  | Kind.FindNode _ => decide (kind_filter = KindFilter.FindNode)
  | Kind.FindNodeResponse _ => decide (kind_filter = KindFilter.FindNodeResponse)
  | Kind.FindValue _ => decide (kind_filter = KindFilter.FindValue)
  | Kind.FindValueResponse _ => decide (kind_filter = KindFilter.FindValueResponse)
  | Kind.Bootstrap => decide (kind_filter = KindFilter.Bootstrap)
  | Kind.BootstrapResponse _ => decide (kind_filter = KindFilter.BootstrapResponse)

/-- Combined kind and sender filtering of `Receptions::next` (kind filter
first, then sender filter; an absent filter accepts everything). -/
def passesFilters (kind_filter : Option KindFilter)
    (sender_filter : Option (List Hash)) (rpc : Rpc) : Bool :=
  (match kind_filter with
   | some f => kindAccepts f rpc.kind
   | none => true) &&
  (match sender_filter with
   | some senders => senders.contains rpc.sender_id
   | none => true)

/-- Deadline check at the top of the iteration loop:
`time::SteadyTime::now() > timeout`. -/
def timedOut (timeout : Option Int) (now : Int) : Bool :=
  match timeout with
  | some deadline => decide (deadline < now)
  | none => false

/-- Outcome of one call to `<Receptions as Iterator>::next`. `diverges`
records that the loop never returns: this happens exactly when the channel
is exhausted with no deadline configured and no shutdown observed, since
the match arm `_ => ()` discards the iterator's `None` and the loop polls
again forever. -/
inductive NextOutcome where
  | yields (rpc : Rpc) (rest : List (Int × Update)) (shutdown : Bool)
  | ends
  | diverges
deriving DecidableEq, Repr

/-- Embedding of one call to `Receptions::next` over the remaining
timestamped stream. On an exhausted stream: a recorded shutdown ends the
iteration at the flag check; a configured deadline is eventually crossed by
the advancing clock, ending it; otherwise the loop spins forever. -/
def receptionsNext :
    List (Int × Update) → Option Int → Option KindFilter →
    Option (List Hash) → Bool → NextOutcome
  | [], timeout, _, _, shutdown =>
    if shutdown then NextOutcome.ends
    else
      match timeout with
      | some _ => NextOutcome.ends
      | none => NextOutcome.diverges
  | (t, u) :: rest, timeout, kind_filter, sender_filter, shutdown =>
    if timedOut timeout t then NextOutcome.ends
    else if shutdown then NextOutcome.ends
    else
      match u with
      | Update.RpcReceived rpc =>
        if passesFilters kind_filter sender_filter rpc then
          NextOutcome.yields rpc rest shutdown
        else receptionsNext rest timeout kind_filter sender_filter shutdown
      | Update.Shutdown => receptionsNext rest timeout kind_filter sender_filter true
      | Update.Tick => receptionsNext rest timeout kind_filter sender_filter shutdown

/-- Every RPC yielded by repeatedly calling `Receptions::next` over a
finite stream, in order. Once the stream is exhausted no further RPC can
be yielded (the iterator then either ends or spins, per
`receptionsNext`). -/
def receptionsCollect :
    List (Int × Update) → Option Int → Option KindFilter →
    Option (List Hash) → Bool → List Rpc
  | [], _, _, _, _ => []
  | (t, u) :: rest, timeout, kind_filter, sender_filter, shutdown =>
    if timedOut timeout t then []
    else if shutdown then []
    else
      match u with
      | Update.RpcReceived rpc =>
        if passesFilters kind_filter sender_filter rpc then
          rpc :: receptionsCollect rest timeout kind_filter sender_filter shutdown
        else receptionsCollect rest timeout kind_filter sender_filter shutdown
      | Update.Shutdown => receptionsCollect rest timeout kind_filter sender_filter true
      | Update.Tick => receptionsCollect rest timeout kind_filter sender_filter shutdown

/-- Specification-side description of the reception pipeline (§8,
"Reception filtering"): truncate the stream at the deadline and at the
first shutdown event, keep the received RPCs passing both filters. -/
def receptionsSpecYields (stream : List (Int × Update)) (timeout : Option Int)
    (kind_filter : Option KindFilter) (sender_filter : Option (List Hash)) :
    List Rpc :=
  (((stream.takeWhile (fun p => !timedOut timeout p.1)).takeWhile
      (fun p => decide (p.2 ≠ Update.Shutdown))).filterMap
    (fun p =>
      match p.2 with
      | Update.RpcReceived rpc => some rpc
      | _ => none)).filter (passesFilters kind_filter sender_filter)

/-! ### Concrete states used by witnesses and counterexamples -/

/-- Storage holding a single entry under key 5 whose expiration (0) is
already in the past, used for C1. -/
def expiredStorage : Storage :=
  { entries_and_expirations := [(5, { entry := StorageEntry.Blob [], expiration := 0 })],
    parent_id := 0 }

/-- Storage holding MAX_STORAGE distinct keys, used to witness C4. -/
def bigStorage : Storage :=
  { entries_and_expirations := (List.range MAX_STORAGE).map
      (fun i => (i, { entry := StorageEntry.Blob [], expiration := 0 })),
    parent_id := 0 }

/-- Table of the spec's bounce-traversal scenario: parent id 0 with peers
at ids 1, 2, 4 and 2^159. -/
def bounceTable : Table :=
  ([⟨1, 0⟩, ⟨2, 0⟩, ⟨4, 0⟩, ⟨2 ^ 159, 0⟩] : List NodeInfo).foldl
    Table.insert_node (Table.new 0)

/-- Table holding the single peer 1 around parent 0, used for C10. -/
def singletonTable : Table := (Table.new 0).insert_node ⟨1, 0⟩

/-- Table obtained by inserting the 41 peers with ids 64..104 (all in
bucket 6 around parent 0) into a fresh table: ids 64..83 fill the bucket,
id 84 evicts 64 and records the conflict {evicted 64, inserted 84}, and
ids 85..104 evict 65..84 in turn — so the peer 84 recorded as `inserted`
in the first conflict is itself no longer present. -/
def evictedInsertedTable : Table :=
  (((List.range 41).map (fun i => ({ id := 64 + i, address := 0 } : NodeInfo))).foldl
    Table.insert_node (Table.new 0))

/-- Table obtained by inserting the 21 peers with ids 64..84 into a fresh
table around parent 0: the single recorded conflict pairs evicted 64 with
inserted 84, and 84 is still at the back of bucket 6. -/
def freshConflictTable : Table :=
  (((List.range 21).map (fun i => ({ id := 64 + i, address := 0 } : NodeInfo))).foldl
    Table.insert_node (Table.new 0))

/-! ### Basic lemmas about the hash primitives -/

theorem log2fuel_eq_log2 : ∀ (fuel n : Nat), n < 2 ^ fuel →
    log2fuel fuel n = Nat.log2 n := by
  intro fuel
  induction fuel with
  | zero =>
    intro n hn
    interval_cases n
    rw [log2fuel, Nat.log2]
    simp
  | succ fuel ih =>
    intro n hn
    rw [log2fuel, Nat.log2]
    by_cases h2 : 2 ≤ n
    · simp only [h2, if_true, ge_iff_le]
      rw [ih]
      omega
    · simp [h2]

theorem log2fuel_lt_size {n : Nat} (hn : n ≠ 0) (hsize : n < 2 ^ HASH_SIZE) :
    log2fuel HASH_SIZE n < HASH_SIZE := by
  rw [log2fuel_eq_log2 _ _ hsize]
  exact (Nat.log2_lt hn).mpr hsize

theorem log2fuel_le_self {n : Nat} (hn : n ≠ 0) (hsize : n < 2 ^ HASH_SIZE) :
    2 ^ log2fuel HASH_SIZE n ≤ n := by
  rw [log2fuel_eq_log2 _ _ hsize]
  exact Nat.log2_self_le hn

theorem lt_log2fuel_succ {n : Nat} (hsize : n < 2 ^ HASH_SIZE) :
    n < 2 ^ (log2fuel HASH_SIZE n + 1) := by
  rw [log2fuel_eq_log2 _ _ hsize]
  exact Nat.lt_log2_self

theorem testBit_log2_self {x : Nat} (hx : x ≠ 0) :
    x.testBit (Nat.log2 x) = true := by
  have h1 : 2 ^ Nat.log2 x ≤ x := Nat.log2_self_le hx
  have h2 : x < 2 ^ (Nat.log2 x + 1) := Nat.lt_log2_self
  rw [pow_succ] at h2
  have hdiv : x / 2 ^ Nat.log2 x = 1 := by
    refine Nat.div_eq_of_lt_le (by simpa using h1) (by omega)
  rw [Nat.testBit_to_div_mod, hdiv]
  rfl

theorem testBit_gt_log2 {x k : Nat} (hk : Nat.log2 x < k) :
    x.testBit k = false := by
  refine Nat.testBit_lt_two_pow (lt_of_lt_of_le Nat.lt_log2_self ?_)
  exact Nat.pow_le_pow_right (by omega) (by omega)

/-- Bits of `x ^^^ d` strictly above the most significant bit of `x` agree
with `d`. -/
theorem testBit_xor_gt_log2 {x d k : Nat} (hk : Nat.log2 x < k) :
    (x ^^^ d).testBit k = d.testBit k := by
  rw [Nat.testBit_xor, testBit_gt_log2 hk, Bool.false_xor]

/-- At the most significant bit of `x`, the bit of `x ^^^ d` is the
negation of the bit of `d`. -/
theorem testBit_xor_log2_self {x d : Nat} (hx : x ≠ 0) :
    (x ^^^ d).testBit (Nat.log2 x) = !(d.testBit (Nat.log2 x)) := by
  rw [Nat.testBit_xor, testBit_log2_self hx, Bool.true_xor]

/-- Ordering of the bounce traversal on bucket indices: `i` is visited
strictly before `j`. Set-bit buckets come first in descending order, then
cleared-bit buckets in ascending order. -/
def beforeRel (d i j : Nat) : Prop :=
  (d.testBit i = true ∧ d.testBit j = true ∧ j < i) ∨
  (d.testBit i = true ∧ d.testBit j = false) ∨
  (d.testBit i = false ∧ d.testBit j = false ∧ i < j)

/-- Core geometric fact behind the bounce traversal: if bucket `i` is
visited before bucket `j` (relative to the distance `d` between the parent
and the target), then every hash whose distance-to-parent has its most
significant bit at `i` is strictly closer to the target than every hash
whose distance-to-parent has its most significant bit at `j`. Here `x` and
`y` are the respective distances to the parent, and `x ^^^ d`, `y ^^^ d`
are the distances to the target. -/
theorem dist_lt_of_beforeRel {d x y i j : Nat} (hx : x ≠ 0) (hy : y ≠ 0)
    (hxi : Nat.log2 x = i) (hyj : Nat.log2 y = j) (hb : beforeRel d i j) :
    x ^^^ d < y ^^^ d := by
  subst hxi hyj
  rcases hb with ⟨hdi, hdj, hji⟩ | ⟨hdi, hdj⟩ | ⟨hdi, hdj, hij⟩
  · refine Nat.lt_of_testBit (Nat.log2 x) ?_ ?_ ?_
    · rw [testBit_xor_log2_self hx, hdi, Bool.not_true]
    · rw [testBit_xor_gt_log2 hji, hdi]
    · intro k hk
      rw [testBit_xor_gt_log2 hk, testBit_xor_gt_log2 (lt_trans hji hk)]
  · have hne : Nat.log2 x ≠ Nat.log2 y := by
      intro h
      rw [h, hdj] at hdi
      exact Bool.false_ne_true hdi
    rcases Nat.lt_or_ge (Nat.log2 y) (Nat.log2 x) with hji | hij
    · refine Nat.lt_of_testBit (Nat.log2 x) ?_ ?_ ?_
      · rw [testBit_xor_log2_self hx, hdi, Bool.not_true]
      · rw [testBit_xor_gt_log2 hji, hdi]
      · intro k hk
        rw [testBit_xor_gt_log2 hk, testBit_xor_gt_log2 (lt_trans hji hk)]
    · have hij : Nat.log2 x < Nat.log2 y := lt_of_le_of_ne hij hne
      refine Nat.lt_of_testBit (Nat.log2 y) ?_ ?_ ?_
      · rw [testBit_xor_gt_log2 hij, hdj]
      · rw [testBit_xor_log2_self hy, hdj, Bool.not_false]
      · intro k hk
        rw [testBit_xor_gt_log2 (lt_trans hij hk), testBit_xor_gt_log2 hk]
  · refine Nat.lt_of_testBit (Nat.log2 y) ?_ ?_ ?_
    · rw [testBit_xor_gt_log2 hij, hdj]
    · rw [testBit_xor_log2_self hy, hdj, Bool.not_false]
    · intro k hk
      rw [testBit_xor_gt_log2 (lt_trans hij hk), testBit_xor_gt_log2 hk]

theorem mem_ones {d i : Nat} : i ∈ ones d ↔ i < HASH_SIZE ∧ d.testBit i = true := by
  simp [ones, List.mem_filter, List.mem_range]

theorem mem_zeroes {d i : Nat} : i ∈ zeroes d ↔ i < HASH_SIZE ∧ d.testBit i = false := by
  simp [zeroes, List.mem_filter, List.mem_range]

/-- The bounce traversal visits bucket indices in the order `beforeRel d`. -/
theorem pairwise_lookupOrder (d : Nat) :
    (lookupOrder d).Pairwise (beforeRel d) := by
  rw [lookupOrder, List.pairwise_append]
  refine ⟨?_, ?_, ?_⟩
  · rw [List.pairwise_reverse]
    refine List.Pairwise.imp_of_mem ?_
      ((List.pairwise_lt_range HASH_SIZE).filter (fun i => d.testBit i))
    intro a b ha hb hab
    have ha' := mem_ones.mp (by simpa [ones] using ha)
    have hb' := mem_ones.mp (by simpa [ones] using hb)
    exact Or.inl ⟨hb'.2, ha'.2, hab⟩
  · refine List.Pairwise.imp_of_mem ?_
      ((List.pairwise_lt_range HASH_SIZE).filter (fun i => !d.testBit i))
    intro a b ha hb hab
    have ha' := mem_zeroes.mp (by simpa [zeroes] using ha)
    have hb' := mem_zeroes.mp (by simpa [zeroes] using hb)
    exact Or.inr (Or.inr ⟨ha'.2, hb'.2, hab⟩)
  · intro a ha b hb
    have ha' := mem_ones.mp (List.mem_reverse.mp ha)
    have hb' := mem_zeroes.mp hb
    exact Or.inr (Or.inl ⟨ha'.2, hb'.2⟩)

theorem lookupOrder_perm_range (d : Nat) :
    (lookupOrder d).Perm (List.range HASH_SIZE) := by
  rw [lookupOrder]
  refine List.Perm.trans (List.Perm.append_right _ (List.reverse_perm _)) ?_
  rw [ones, zeroes]
  exact List.filter_append_perm _ _

theorem mem_lookupOrder {d i : Nat} : i ∈ lookupOrder d ↔ i < HASH_SIZE := by
  rw [(lookupOrder_perm_range d).mem_iff, List.mem_range]

/-! ### Lemmas about the bounce loop -/

theorem xor_dist_eq (q a b : Nat) : (q ^^^ a) ^^^ (q ^^^ b) = a ^^^ b := by
  rw [Nat.xor_comm q a, Nat.xor_assoc, ← Nat.xor_assoc q q, Nat.xor_self,
    Nat.zero_xor]

/-- Compliance of a node with an optional blacklist. -/
def blOk (blacklist : Option (List Hash)) (x : NodeInfo) : Prop :=
  ∀ b, blacklist = some b → x.id ∉ b

theorem mem_applyBlacklist {bl : Option (List Hash)} {l : List NodeInfo}
    {x : NodeInfo} (h : x ∈ applyBlacklist bl l) : x ∈ l ∧ blOk bl x := by
  cases bl with
  | none =>
    exact ⟨h, fun b hb => by cases hb⟩
  | some b =>
    rw [applyBlacklist] at h
    have h' := List.mem_filter.mp h
    refine ⟨h'.1, fun b' hb' => ?_⟩
    cases hb'
    have := h'.2
    simpa using this

theorem bounce_nil (buckets : List (List NodeInfo)) (id : Hash) (n : Nat)
    (bl : Option (List Hash)) (closest : List NodeInfo) :
    bounce buckets id n bl [] closest = closest := rfl

theorem bounce_cons_empty {buckets : List (List NodeInfo)} {id : Hash}
    {n : Nat} {bl : Option (List Hash)} {index : Nat} {rest : List Nat}
    {closest : List NodeInfo}
    (h : (buckets.getD index []).isEmpty = true) :
    bounce buckets id n bl (index :: rest) closest =
      bounce buckets id n bl rest closest := by
  simp only [bounce]
  rw [if_pos h]

theorem bounce_cons_break {buckets : List (List NodeInfo)} {id : Hash}
    {n : Nat} {bl : Option (List Hash)} {index : Nat} {rest : List Nat}
    {closest : List NodeInfo}
    (h : ¬ (buckets.getD index []).isEmpty = true)
    (hb : (closest ++ (((applyBlacklist bl (buckets.getD index
        [])).insertionSort (distLe id)).take (n - closest.length))).length = n) :
    bounce buckets id n bl (index :: rest) closest =
      closest ++ (((applyBlacklist bl (buckets.getD index
        [])).insertionSort (distLe id)).take (n - closest.length)) := by
  simp only [bounce]
  rw [if_neg h, if_pos hb]

theorem bounce_cons_go {buckets : List (List NodeInfo)} {id : Hash}
    {n : Nat} {bl : Option (List Hash)} {index : Nat} {rest : List Nat}
    {closest : List NodeInfo}
    (h : ¬ (buckets.getD index []).isEmpty = true)
    (hb : ¬ (closest ++ (((applyBlacklist bl (buckets.getD index
        [])).insertionSort (distLe id)).take (n - closest.length))).length = n) :
    bounce buckets id n bl (index :: rest) closest =
      bounce buckets id n bl rest
        (closest ++ (((applyBlacklist bl (buckets.getD index
          [])).insertionSort (distLe id)).take (n - closest.length))) := by
  simp only [bounce]
  rw [if_neg h, if_neg hb]

/-- Main invariant of the bounce loop. Starting from an accumulator that is
sorted by distance to the target, within the size budget, blacklist-clean
and strictly closer to the target than everything in the buckets still to
be visited, the loop result is sorted, at most `n` long, blacklist-clean
and bounded by the accumulator plus the eligible entries of the visited
buckets. -/
theorem bounce_props (buckets : List (List NodeInfo)) (q id : Hash) (n : Nat)
    (bl : Option (List Hash)) (hq : q < 2 ^ HASH_SIZE)
    (hbuckets : ∀ i, i < HASH_SIZE → ∀ info ∈ buckets.getD i [],
        info.id < 2 ^ HASH_SIZE ∧ q ^^^ info.id ≠ 0 ∧
        log2fuel HASH_SIZE (q ^^^ info.id) = i) :
    ∀ (order : List Nat) (closest : List NodeInfo),
      order.Pairwise (beforeRel (q ^^^ id)) →
      (∀ j ∈ order, j < HASH_SIZE) →
      closest.Pairwise (distLe id) →
      closest.length ≤ n →
      (∀ x ∈ closest, ∀ j ∈ order, ∀ p ∈ buckets.getD j [],
        x.id ^^^ id < p.id ^^^ id) →
      (∀ x ∈ closest, blOk bl x) →
      (bounce buckets id n bl order closest).Pairwise (distLe id) ∧
      (bounce buckets id n bl order closest).length ≤ n ∧
      (∀ x ∈ bounce buckets id n bl order closest, blOk bl x) ∧
      (bounce buckets id n bl order closest).length ≤
        closest.length +
          (order.map (fun j => (applyBlacklist bl (buckets.getD j [])).length)).sum := by
  intro order
  induction order with
  | nil =>
    intro closest _ _ hsorted hlen _ hbl
    rw [bounce_nil]
    exact ⟨hsorted, hlen, hbl, by simp⟩
  | cons index rest ih =>
    intro closest horder horderlt hsorted hlen hcross hbl
    obtain ⟨hhead, htail⟩ := List.pairwise_cons.mp horder
    have hindexlt : index < HASH_SIZE := horderlt index (List.mem_cons_self _ _)
    have htaillt : ∀ j ∈ rest, j < HASH_SIZE :=
      fun j hj => horderlt j (List.mem_cons_of_mem _ hj)
    by_cases hemp : (buckets.getD index []).isEmpty = true
    · rw [bounce_cons_empty hemp]
      have hcross' : ∀ x ∈ closest, ∀ j ∈ rest, ∀ p ∈ buckets.getD j [],
          x.id ^^^ id < p.id ^^^ id :=
        fun x hx j hj => hcross x hx j (List.mem_cons_of_mem _ hj)
      obtain ⟨i1, i2, i3, i4⟩ := ih closest htail htaillt hsorted hlen hcross' hbl
      exact ⟨i1, i2, i3, le_trans i4 (by simp)⟩
    · -- the bucket at `index` is visited for real
      have hmem_take : ∀ x ∈ ((applyBlacklist bl (buckets.getD index
          [])).insertionSort (distLe id)).take (n - closest.length),
          x ∈ buckets.getD index [] ∧ blOk bl x := by
        intro x hx
        have hx1 : x ∈ (applyBlacklist bl (buckets.getD index
            [])).insertionSort (distLe id) := List.mem_of_mem_take hx
        have hx2 : x ∈ applyBlacklist bl (buckets.getD index []) :=
          (List.perm_insertionSort (distLe id) _).mem_iff.mp hx1
        exact mem_applyBlacklist hx2
      have htake_sorted : (((applyBlacklist bl (buckets.getD index
          [])).insertionSort (distLe id)).take (n - closest.length)).Pairwise
            (distLe id) :=
        List.Pairwise.sublist (List.take_sublist _ _)
          (List.sorted_insertionSort (distLe id) _)
      have hA_sorted : (closest ++ (((applyBlacklist bl (buckets.getD index
          [])).insertionSort (distLe id)).take (n - closest.length))).Pairwise
            (distLe id) := by
        rw [List.pairwise_append]
        refine ⟨hsorted, htake_sorted, ?_⟩
        intro x hx y hy
        have hyb := (hmem_take y hy).1
        exact le_of_lt (hcross x hx index (List.mem_cons_self _ _) y hyb)
      have hA_len : (closest ++ (((applyBlacklist bl (buckets.getD index
          [])).insertionSort (distLe id)).take (n - closest.length))).length ≤ n := by
        rw [List.length_append, List.length_take]
        have h1 : (n - closest.length) ⊓ ((applyBlacklist bl (buckets.getD index
            [])).insertionSort (distLe id)).length ≤ n - closest.length :=
          Nat.min_le_left _ _
        omega
      have hA_bl : ∀ x ∈ closest ++ (((applyBlacklist bl (buckets.getD index
          [])).insertionSort (distLe id)).take (n - closest.length)), blOk bl x := by
        intro x hx
        rcases List.mem_append.mp hx with hx | hx
        · exact hbl x hx
        · exact (hmem_take x hx).2
      have hA_cross : ∀ x ∈ closest ++ (((applyBlacklist bl (buckets.getD index
          [])).insertionSort (distLe id)).take (n - closest.length)),
          ∀ j ∈ rest, ∀ p ∈ buckets.getD j [], x.id ^^^ id < p.id ^^^ id := by
        intro x hx j hj p hp
        rcases List.mem_append.mp hx with hx | hx
        · exact hcross x hx j (List.mem_cons_of_mem _ hj) p hp
        · have hxb := (hmem_take x hx).1
          have hxf := hbuckets index hindexlt x hxb
          have hpf := hbuckets j (htaillt j hj) p hp
          have hxe : (q ^^^ x.id) ^^^ (q ^^^ id) = x.id ^^^ id := xor_dist_eq q _ _
          have hpe : (q ^^^ p.id) ^^^ (q ^^^ id) = p.id ^^^ id := xor_dist_eq q _ _
          rw [← hxe, ← hpe]
          refine dist_lt_of_beforeRel hxf.2.1 hpf.2.1 ?_ ?_ (hhead j hj)
          · rw [← log2fuel_eq_log2 HASH_SIZE _ (Nat.xor_lt_two_pow hq hxf.1)]
            exact hxf.2.2
          · rw [← log2fuel_eq_log2 HASH_SIZE _ (Nat.xor_lt_two_pow hq hpf.1)]
            exact hpf.2.2
      have hA_lenF : (closest ++ (((applyBlacklist bl (buckets.getD index
          [])).insertionSort (distLe id)).take (n - closest.length))).length ≤
          closest.length + (applyBlacklist bl (buckets.getD index [])).length := by
        rw [List.length_append, List.length_take,
          (List.perm_insertionSort (distLe id)
            (applyBlacklist bl (buckets.getD index []))).length_eq]
        omega
      by_cases hbreak : (closest ++ (((applyBlacklist bl (buckets.getD index
          [])).insertionSort (distLe id)).take (n - closest.length))).length = n
      · rw [bounce_cons_break hemp hbreak]
        refine ⟨hA_sorted, le_of_eq hbreak, hA_bl, ?_⟩
        refine le_trans hA_lenF ?_
        simp only [List.map_cons, List.sum_cons]
        omega
      · rw [bounce_cons_go hemp hbreak]
        obtain ⟨i1, i2, i3, i4⟩ := ih _ htail htaillt hA_sorted hA_len hA_cross hA_bl
        refine ⟨i1, i2, i3, ?_⟩
        refine le_trans i4 ?_
        simp only [List.map_cons, List.sum_cons]
        omega

theorem applyBlacklist_nil (bl : Option (List Hash)) :
    applyBlacklist bl [] = [] := by
  cases bl <;> rfl

theorem bounce_ne_nil_of_closest {buckets : List (List NodeInfo)} {id : Hash}
    {n : Nat} {bl : Option (List Hash)} :
    ∀ (order : List Nat) (closest : List NodeInfo), closest ≠ [] →
      bounce buckets id n bl order closest ≠ [] := by
  intro order
  induction order with
  | nil =>
    intro closest hne
    rw [bounce_nil]
    exact hne
  | cons index rest ih =>
    intro closest hne
    by_cases hemp : (buckets.getD index []).isEmpty = true
    · rw [bounce_cons_empty hemp]
      exact ih closest hne
    · by_cases hbreak : (closest ++ (((applyBlacklist bl (buckets.getD index
          [])).insertionSort (distLe id)).take (n - closest.length))).length = n
      · rw [bounce_cons_break hemp hbreak]
        intro hnil
        exact hne (List.append_eq_nil.mp hnil).1
      · rw [bounce_cons_go hemp hbreak]
        refine ih _ ?_
        intro hnil
        exact hne (List.append_eq_nil.mp hnil).1

theorem bounce_ne_nil {buckets : List (List NodeInfo)} {id : Hash} {n : Nat}
    {bl : Option (List Hash)} (hn : n ≠ 0) :
    ∀ (order : List Nat) (closest : List NodeInfo) (j : Nat), j ∈ order →
      applyBlacklist bl (buckets.getD j []) ≠ [] →
      bounce buckets id n bl order closest ≠ [] := by
  intro order
  induction order with
  | nil =>
    intro closest j hj
    cases hj
  | cons index rest ih =>
    intro closest j hj helig
    by_cases hemp : (buckets.getD index []).isEmpty = true
    · rw [bounce_cons_empty hemp]
      rcases List.mem_cons.mp hj with rfl | hj'
      · rw [List.isEmpty_iff.mp hemp, applyBlacklist_nil] at helig
        exact absurd rfl helig
      · exact ih closest j hj' helig
    · by_cases hbreak : (closest ++ (((applyBlacklist bl (buckets.getD index
          [])).insertionSort (distLe id)).take (n - closest.length))).length = n
      · rw [bounce_cons_break hemp hbreak]
        intro hnil
        rw [hnil] at hbreak
        exact hn hbreak.symm
      · rw [bounce_cons_go hemp hbreak]
        rcases List.mem_cons.mp hj with rfl | hj'
        · -- the eligible bucket is the one just visited: the appended
          -- accumulator is nonempty
          refine bounce_ne_nil_of_closest rest _ ?_
          rcases List.eq_nil_or_concat closest with hc | _
          · subst hc
            simp only [List.nil_append, List.length_nil, Nat.sub_zero]
            intro hnil
            rcases List.take_eq_nil_iff.mp hnil with h | h
            · exact hn h
            · refine helig ?_
              have hp := (List.perm_insertionSort (distLe id)
                (applyBlacklist bl (buckets.getD j []))).symm
              rw [h] at hp
              exact List.Perm.eq_nil hp
          · intro hnil
            rename_i hc
            obtain ⟨l, a, rfl⟩ := hc
            exact absurd (List.append_eq_nil.mp hnil).1 (by simp)
        · exact ih _ j hj' helig

theorem bounce_n_zero {buckets : List (List NodeInfo)} {id : Hash}
    {bl : Option (List Hash)} :
    ∀ (order : List Nat), bounce buckets id 0 bl order [] = [] := by
  intro order
  induction order with
  | nil => rw [bounce_nil]
  | cons index rest ih =>
    by_cases hemp : (buckets.getD index []).isEmpty = true
    · rw [bounce_cons_empty hemp]
      exact ih
    · have hbreak : (([] : List NodeInfo) ++ (((applyBlacklist bl
          (buckets.getD index [])).insertionSort (distLe id)).take
            (0 - List.length ([] : List NodeInfo)))).length = 0 := by simp
      rw [bounce_cons_break hemp hbreak]
      simp

theorem bounce_no_eligible {buckets : List (List NodeInfo)} {id : Hash}
    {n : Nat} {bl : Option (List Hash)} :
    ∀ (order : List Nat) (closest : List NodeInfo),
      (∀ j ∈ order, applyBlacklist bl (buckets.getD j []) = []) →
      bounce buckets id n bl order closest = closest := by
  intro order
  induction order with
  | nil =>
    intro closest _
    rw [bounce_nil]
  | cons index rest ih =>
    intro closest helig
    by_cases hemp : (buckets.getD index []).isEmpty = true
    · rw [bounce_cons_empty hemp]
      exact ih closest (fun j hj => helig j (List.mem_cons_of_mem _ hj))
    · have hfil : applyBlacklist bl (buckets.getD index []) = [] :=
        helig index (List.mem_cons_self _ _)
      by_cases hbreak : (closest ++ (((applyBlacklist bl (buckets.getD index
          [])).insertionSort (distLe id)).take (n - closest.length))).length = n
      · rw [bounce_cons_break hemp hbreak, hfil]
        simp
      · rw [bounce_cons_go hemp hbreak]
        rw [show closest ++ (((applyBlacklist bl (buckets.getD index
            [])).insertionSort (distLe id)).take (n - closest.length)) = closest by
          rw [hfil]; simp]
        exact ih closest (fun j hj => helig j (List.mem_cons_of_mem _ hj))

theorem sum_map_getD_range (L : List (List NodeInfo)) (g : List NodeInfo → Nat) :
    ((List.range L.length).map (fun i => g (L.getD i []))).sum = (L.map g).sum := by
  induction L with
  | nil => simp
  | cons b L ih =>
    rw [List.length_cons, List.range_succ_eq_map]
    simp only [List.map_cons, List.map_map, List.sum_cons, List.getD_cons_zero,
      Function.comp_def, Nat.succ_eq_add_one, List.getD_cons_succ]
    rw [ih]

theorem applyBlacklist_flatten_length (bl : Option (List Hash))
    (L : List (List NodeInfo)) :
    (applyBlacklist bl L.flatten).length =
      (L.map (fun bucket => (applyBlacklist bl bucket).length)).sum := by
  cases bl with
  | none =>
    simp [applyBlacklist, List.length_flatten]
  | some b =>
    simp only [applyBlacklist]
    rw [List.filter_flatten, List.length_flatten, List.map_map]
    simp [Function.comp_def]

/-- Consequences of `bounce_props` for `Table::closest_n_nodes_to` on a
well-formed table: the result is sorted by ascending XOR distance to the
target, contains at most `min n (number of eligible stored peers)`
entries, and contains no blacklisted peer. -/
theorem closest_n_nodes_to_props (t : Table) (hWF : WF t) (id : Hash)
    (n : Nat) (bl : Option (List Hash)) :
    (t.closest_n_nodes_to id n bl).Pairwise (distLe id) ∧
    (t.closest_n_nodes_to id n bl).length ≤ n ∧
    (∀ x ∈ t.closest_n_nodes_to id n bl, blOk bl x) ∧
    (t.closest_n_nodes_to id n bl).length ≤
      (applyBlacklist bl (storedNodes t)).length := by
  obtain ⟨hlen160, hq, hbuckets⟩ := hWF
  have hmain := bounce_props t.buckets t.parent_id id n bl hq
    (fun i hi info hinfo => (hbuckets i hi).1 info hinfo)
    (lookupOrder (t.parent_id ^^^ id)) []
    (pairwise_lookupOrder _)
    (fun j hj => mem_lookupOrder.mp hj)
    (List.Pairwise.nil)
    (by simp)
    (by intro x hx; cases hx)
    (by intro x hx; cases hx)
  rw [Table.closest_n_nodes_to]
  refine ⟨hmain.1, hmain.2.1, hmain.2.2.1, ?_⟩
  refine le_trans hmain.2.2.2 ?_
  rw [List.length_nil, Nat.zero_add]
  have hperm := (lookupOrder_perm_range (t.parent_id ^^^ id)).map
    (fun j => (applyBlacklist bl (t.buckets.getD j [])).length)
  rw [hperm.sum_eq, ← hlen160,
    sum_map_getD_range t.buckets (fun bucket => (applyBlacklist bl bucket).length),
    storedNodes, applyBlacklist_flatten_length]

/-! ### Lemmas about insertion and table well-formedness -/

theorem getD_set_self {l : List (List NodeInfo)} {i : Nat} (h : i < l.length)
    (b : List NodeInfo) : (l.set i b).getD i [] = b := by
  rw [List.getD_eq_getElem?_getD, List.getElem?_set_self h, Option.getD_some]

theorem getD_set_ne {l : List (List NodeInfo)} {i j : Nat} (h : i ≠ j)
    (b : List NodeInfo) : (l.set i b).getD j [] = l.getD j [] := by
  rw [List.getD_eq_getElem?_getD, List.getElem?_set_ne h,
    ← List.getD_eq_getElem?_getD]

theorem bucket_for_node_none {t : Table} {id : Hash}
    (h : id = t.parent_id) : t.bucket_for_node id = none := by
  rw [Table.bucket_for_node, h, Nat.xor_self, height, if_pos rfl]

theorem bucket_for_node_some {t : Table} {id : Hash}
    (h : id ≠ t.parent_id) :
    t.bucket_for_node id = some (log2fuel HASH_SIZE (t.parent_id ^^^ id)) := by
  rw [Table.bucket_for_node, height, if_neg]
  intro h0
  exact h (Nat.xor_eq_zero.mp h0).symm

theorem insert_node_eq_of_none {t : Table} {info : NodeInfo}
    (h : t.bucket_for_node info.id = none) : t.insert_node info = t := by
  rw [Table.insert_node, h]

theorem insert_node_eq_push {t : Table} {info : NodeInfo} {index : Nat}
    (h : t.bucket_for_node info.id = some index)
    (hlen : ¬ ((t.buckets.getD index []).filter
      (fun stored_info => decide (info.id ≠ stored_info.id))).length = BUCKET_DEPTH) :
    t.insert_node info =
      { t with buckets := (t.buckets.set index
          (((t.buckets.getD index []).filter
            (fun stored_info => decide (info.id ≠ stored_info.id))) ++ [info])) } := by
  rw [Table.insert_node, h]
  simp only [if_neg hlen]

theorem insert_node_eq_evict {t : Table} {info : NodeInfo} {index : Nat}
    (h : t.bucket_for_node info.id = some index)
    (hlen : ((t.buckets.getD index []).filter
      (fun stored_info => decide (info.id ≠ stored_info.id))).length = BUCKET_DEPTH) :
    ∃ evicted rest,
      (t.buckets.getD index []).filter
        (fun stored_info => decide (info.id ≠ stored_info.id)) = evicted :: rest ∧
      t.insert_node info =
        { t with
          buckets := t.buckets.set index (rest ++ [info]),
          conflicts := t.conflicts ++ [{ evicted := evicted, inserted := info }] } := by
  rcases hfil : (t.buckets.getD index []).filter
      (fun stored_info => decide (info.id ≠ stored_info.id)) with _ | ⟨evicted, rest⟩
  · rw [hfil] at hlen
    simp [BUCKET_DEPTH, K] at hlen
  · refine ⟨evicted, rest, hfil, ?_⟩
    rw [Table.insert_node, h]
    simp only [hfil, if_pos (hfil ▸ hlen)]

theorem new_buckets_getD (q : Hash) (i : Nat) :
    (Table.new q).buckets.getD i [] = [] := by
  rw [Table.new]
  rcases Nat.lt_or_ge i HASH_SIZE with hi | hi
  · rw [List.getD_eq_getElem _ _ (by simpa using hi)]
    simp
  · rw [List.getD_eq_default]
    simpa using hi

theorem WF_new (q : Hash) (hq : q < 2 ^ HASH_SIZE) : WF (Table.new q) := by
  refine ⟨by simp [Table.new], hq, ?_⟩
  intro i hi
  rw [new_buckets_getD]
  exact ⟨fun info h => absurd h (List.not_mem_nil _), List.Pairwise.nil, by simp⟩

theorem WF_set_bucket {t : Table} (hWF : WF t) {index : Nat}
    (hindexlt : index < HASH_SIZE) {nb : List NodeInfo}
    (hmem : ∀ x ∈ nb, x ∈ t.buckets.getD index [] ∨
      (x.id < 2 ^ HASH_SIZE ∧ t.parent_id ^^^ x.id ≠ 0 ∧
        log2fuel HASH_SIZE (t.parent_id ^^^ x.id) = index))
    (hpw : nb.Pairwise (fun a b => a.id ≠ b.id))
    (hlen : nb.length ≤ BUCKET_DEPTH)
    (conflicts' : List EvictionConflict) :
    WF { buckets := t.buckets.set index nb, conflicts := conflicts',
         parent_id := t.parent_id } := by
  obtain ⟨hlen160, hq, hb⟩ := hWF
  refine ⟨by simpa using hlen160, hq, ?_⟩
  intro i hi
  by_cases hij : index = i
  · subst hij
    rw [getD_set_self (by rw [hlen160]; exact hindexlt)]
    refine ⟨?_, hpw, hlen⟩
    intro x hx
    rcases hmem x hx with hold | hnew
    · exact (hb index hindexlt).1 x hold
    · exact hnew
  · rw [getD_set_ne hij]
    exact hb i hi

theorem WF_insert {t : Table} (hWF : WF t) {info : NodeInfo}
    (hid : info.id < 2 ^ HASH_SIZE) : WF (t.insert_node info) := by
  by_cases hpar : info.id = t.parent_id
  · rw [insert_node_eq_of_none (bucket_for_node_none hpar)]
    exact hWF
  · have hxor0 : t.parent_id ^^^ info.id ≠ 0 :=
      fun h0 => hpar (Nat.xor_eq_zero.mp h0).symm
    have hxorlt : t.parent_id ^^^ info.id < 2 ^ HASH_SIZE :=
      Nat.xor_lt_two_pow hWF.2.1 hid
    have hindexlt : log2fuel HASH_SIZE (t.parent_id ^^^ info.id) < HASH_SIZE :=
      log2fuel_lt_size hxor0 hxorlt
    have hsome := bucket_for_node_some hpar
    have holdpw : (t.buckets.getD (log2fuel HASH_SIZE
        (t.parent_id ^^^ info.id)) []).Pairwise (fun a b => a.id ≠ b.id) :=
      (hWF.2.2 _ hindexlt).2.1
    have holdlen : (t.buckets.getD (log2fuel HASH_SIZE
        (t.parent_id ^^^ info.id)) []).length ≤ BUCKET_DEPTH :=
      (hWF.2.2 _ hindexlt).2.2
    have hfilpw : ((t.buckets.getD (log2fuel HASH_SIZE (t.parent_id ^^^ info.id))
        []).filter (fun stored_info => decide (info.id ≠ stored_info.id))).Pairwise
          (fun a b => a.id ≠ b.id) := holdpw.filter _
    have hfilne : ∀ x ∈ (t.buckets.getD (log2fuel HASH_SIZE (t.parent_id ^^^
        info.id)) []).filter (fun stored_info => decide (info.id ≠ stored_info.id)),
        x.id ≠ info.id := by
      intro x hx
      have := (List.mem_filter.mp hx).2
      simp only [decide_eq_true_eq] at this
      exact fun he => this he.symm
    by_cases hfull : ((t.buckets.getD (log2fuel HASH_SIZE (t.parent_id ^^^
        info.id)) []).filter
          (fun stored_info => decide (info.id ≠ stored_info.id))).length =
            BUCKET_DEPTH
    · obtain ⟨evicted, rest, hfil, heq⟩ := insert_node_eq_evict hsome hfull
      rw [heq]
      refine WF_set_bucket hWF hindexlt ?_ ?_ ?_ _
      · intro x hx
        rcases List.mem_append.mp hx with hx | hx
        · refine Or.inl (List.mem_of_mem_filter (p :=
            (fun stored_info => decide (info.id ≠ stored_info.id))) ?_)
          rw [hfil]
          exact List.mem_cons_of_mem _ hx
        · have hxe : x = info := List.mem_singleton.mp hx
          subst hxe
          exact Or.inr ⟨hid, hxor0, rfl⟩
      · rw [List.pairwise_append]
        refine ⟨(List.pairwise_cons.mp (hfil ▸ hfilpw)).2, List.pairwise_singleton _ _, ?_⟩
        intro a ha b hb
        have hbe : b = info := List.mem_singleton.mp hb
        subst hbe
        refine hfilne a ?_
        rw [hfil]
        exact List.mem_cons_of_mem _ ha
      · have : rest.length + 1 = BUCKET_DEPTH := by
          have := hfil ▸ hfull
          simpa using this
        simp only [List.length_append, List.length_singleton]
        omega
    · rw [insert_node_eq_push hsome hfull]
      refine WF_set_bucket hWF hindexlt ?_ ?_ ?_ _
      · intro x hx
        rcases List.mem_append.mp hx with hx | hx
        · exact Or.inl (List.mem_of_mem_filter hx)
        · have hxe : x = info := List.mem_singleton.mp hx
          subst hxe
          exact Or.inr ⟨hid, hxor0, rfl⟩
      · rw [List.pairwise_append]
        refine ⟨hfilpw, List.pairwise_singleton _ _, ?_⟩
        intro a ha b hb
        have hbe : b = info := List.mem_singleton.mp hb
        subst hbe
        exact hfilne a ha
      · have hle : ((t.buckets.getD (log2fuel HASH_SIZE (t.parent_id ^^^
            info.id)) []).filter
              (fun stored_info => decide (info.id ≠ stored_info.id))).length ≤
                (t.buckets.getD (log2fuel HASH_SIZE (t.parent_id ^^^ info.id))
                  []).length := List.length_filter_le _ _
        simp only [List.length_append, List.length_singleton]
        omega

/-! ### Lemmas about node search -/

theorem find?_id_eq_some_of_pairwise {l : List NodeInfo}
    (hpw : l.Pairwise (fun a b => a.id ≠ b.id)) {info : NodeInfo}
    (hmem : info ∈ l) {id : Hash} (hid : info.id = id) :
    l.find? (fun x => decide (id = x.id)) = some info := by
  induction l with
  | nil => cases hmem
  | cons a l ih =>
    obtain ⟨ha, hpw'⟩ := List.pairwise_cons.mp hpw
    rcases List.mem_cons.mp hmem with rfl | hmem'
    · rw [List.find?_cons_of_pos _ (by simp [hid])]
    · rw [List.find?_cons_of_neg _ ?_]
      · exact ih hpw' hmem'
      · simp only [decide_eq_true_eq]
        intro he
        exact (ha info hmem') (by rw [← he, hid])

theorem mem_storedNodes {t : Table} (hlen : t.buckets.length = HASH_SIZE)
    {info : NodeInfo} :
    info ∈ storedNodes t ↔ ∃ i, i < HASH_SIZE ∧ info ∈ t.buckets.getD i [] := by
  rw [storedNodes, List.mem_flatten]
  constructor
  · rintro ⟨b, hb, hib⟩
    obtain ⟨i, hi, hbi⟩ := List.mem_iff_getElem.mp hb
    refine ⟨i, by rw [hlen] at hi; exact hi, ?_⟩
    rw [List.getD_eq_getElem _ _ hi, hbi]
    exact hib
  · rintro ⟨i, hi, hib⟩
    refine ⟨t.buckets.getD i [], ?_, hib⟩
    rw [List.getD_eq_getElem _ _ (by rw [hlen]; exact hi)]
    exact List.getElem_mem _

theorem specific_node_iff {t : Table} (hWF : WF t) {id : Hash}
    (hid : id < 2 ^ HASH_SIZE) (hne : id ≠ t.parent_id) {info : NodeInfo} :
    t.specific_node id = some info ↔ info ∈ storedNodes t ∧ info.id = id := by
  have hxor0 : t.parent_id ^^^ id ≠ 0 :=
    fun h0 => hne (Nat.xor_eq_zero.mp h0).symm
  have hxorlt : t.parent_id ^^^ id < 2 ^ HASH_SIZE :=
    Nat.xor_lt_two_pow hWF.2.1 hid
  have hindexlt : log2fuel HASH_SIZE (t.parent_id ^^^ id) < HASH_SIZE :=
    log2fuel_lt_size hxor0 hxorlt
  rw [Table.specific_node, bucket_for_node_some hne]
  constructor
  · intro h
    have hpred := List.find?_some h
    simp only [decide_eq_true_eq] at hpred
    have hmem' := List.mem_of_find?_eq_some h
    exact ⟨(mem_storedNodes hWF.1).mpr ⟨_, hindexlt, hmem'⟩, hpred.symm⟩
  · rintro ⟨hmem, hideq⟩
    obtain ⟨i, hi, hib⟩ := (mem_storedNodes hWF.1).mp hmem
    have hieq : log2fuel HASH_SIZE (t.parent_id ^^^ info.id) = i :=
      ((hWF.2.2 i hi).1 info hib).2.2
    rw [hideq] at hieq
    rw [hieq]
    exact find?_id_eq_some_of_pairwise ((hWF.2.2 i hi).2.1) hib hideq

theorem filter_eq_self_of_not_mem {l : List NodeInfo} {idv : Hash}
    (h : ∀ x ∈ l, x.id ≠ idv) :
    l.filter (fun stored_info => decide (idv ≠ stored_info.id)) = l := by
  refine List.filter_eq_self.mpr ?_
  intro a ha
  simp only [decide_eq_true_eq]
  exact fun he => (h a ha) he.symm

theorem length_filter_of_mem_pairwise {l : List NodeInfo}
    (hpw : l.Pairwise (fun a b => a.id ≠ b.id)) {idv : Hash} {x : NodeInfo}
    (hx : x ∈ l) (hxid : x.id = idv) :
    (l.filter (fun stored_info => decide (idv ≠ stored_info.id))).length + 1 =
      l.length := by
  induction l with
  | nil => cases hx
  | cons a l ih =>
    obtain ⟨ha, hpw'⟩ := List.pairwise_cons.mp hpw
    rcases List.mem_cons.mp hx with rfl | hx'
    · rw [List.filter_cons_of_neg (by simp [hxid])]
      rw [filter_eq_self_of_not_mem ?_]
      · rfl
      · intro b hb he
        exact (ha b hb) (by rw [hxid, he])
    · rw [List.filter_cons_of_pos ?_]
      · rw [List.length_cons, List.length_cons, ih hpw' hx']
      · simp only [decide_eq_true_eq]
        intro he
        exact (ha x hx') (by rw [hxid, ← he])

/-! ### Lemmas about the storage map -/

theorem find?_map_overwrite (l : List (Hash × EntryAndExpiration)) (k : Hash)
    (v : EntryAndExpiration) {p0 : Hash × EntryAndExpiration}
    (h : l.find? (fun p => decide (p.1 = k)) = some p0) :
    (l.map (fun q => if q.1 = k then (k, v) else q)).find?
      (fun p => decide (p.1 = k)) = some (k, v) := by
  induction l with
  | nil => cases h
  | cons a l ih =>
    by_cases ha : a.1 = k
    · rw [List.map_cons, if_pos ha, List.find?_cons_of_pos _ (by simp)]
    · rw [List.find?_cons_of_neg _ (by simpa using ha)] at h
      rw [List.map_cons, if_neg ha, List.find?_cons_of_neg _ (by simpa using ha)]
      exact ih h

theorem hmFind_hmInsert (l : List (Hash × EntryAndExpiration)) (k : Hash)
    (v : EntryAndExpiration) : hmFind (hmInsert l k v).1 k = some v := by
  rw [hmInsert]
  cases hf : l.find? (fun p => decide (p.1 = k)) with
  | none =>
    rw [hmFind, List.find?_append, hf, Option.none_or,
      List.find?_cons_of_pos _ (by simp)]
    rfl
  | some p0 =>
    rw [hmFind, find?_map_overwrite l k v hf]
    rfl

/-! ### Claim theorems: storage -/

/-- C1, counterexample: the claim says that an entry whose expiration is at
or before the current time is logically absent and `get` returns `None` for
it. In the code `get` never consults the expiration: here the entry stored
under key 5 has expiration 0, the clock reads 1 (so expiration ≤ now), yet
`get` still returns the entry. -/
theorem get_expired_entry_cex :
    hmFind expiredStorage.entries_and_expirations 5 =
      some { entry := StorageEntry.Blob [], expiration := 0 } ∧
    (0 : Int) ≤ 1 ∧
    expiredStorage.get 5 = some (StorageEntry.Blob []) := by
  refine ⟨rfl, by decide, rfl⟩

/-- C1, amended: `Storage::get` returns a clone of the stored entry
whenever the key is present in the map — irrespective of the stored
expiration and of the current time — and `None` when the key is absent.
Expired entries are not filtered out or removed on access. -/
theorem get_returns_entry_iff_present (s : Storage) (k : Hash)
    (e : StorageEntry) (exp : Int)
    (h : hmFind s.entries_and_expirations k =
      some { entry := e, expiration := exp }) :
    s.get k = some e := by
  rw [Storage.get]
  rw [hmFind] at h
  cases hf : s.entries_and_expirations.find? (fun p => decide (p.1 = k)) with
  | none => rw [hf] at h; cases h
  | some p =>
    rw [hf] at h
    have h' : p.2 = { entry := e, expiration := exp } := by simpa using h
    simp [h']

/-- Witness for the amended C1 at a concrete expired entry. -/
theorem get_returns_entry_iff_present_witness :
    expiredStorage.get 5 = some (StorageEntry.Blob []) :=
  get_returns_entry_iff_present expiredStorage 5 (StorageEntry.Blob []) 0 rfl

/-- C3: the expiration `Storage::store` assigns is `now + 24 h` for every
key, independent of the key's XOR distance to `parent_id`. The source
declares `EXPIRATION_DISTANCE_THRESHOLD` with a comment promising that the
expiration drops dramatically past that distance, but never uses it: the
decay required by the spec beyond the threshold does not exist in the
code. -/
theorem store_expiration_constant (s : Storage) (key : Hash)
    (entry : StorageEntry) (now : Int)
    (h : (s.store key entry now).2 ≠ StoreResult.StorageFull) :
    hmFind (s.store key entry now).1.entries_and_expirations key =
      some { entry := entry, expiration := now + BASE_EXPIRATION_TIME_HRS } := by
  rw [Storage.store] at h ⊢
  by_cases hfull : MAX_STORAGE ≤ s.entries_and_expirations.length
  · rw [if_pos hfull] at h
    exact absurd rfl h
  · rw [if_neg hfull]
    rcases hins : hmInsert s.entries_and_expirations key
        { entry := entry, expiration := now + BASE_EXPIRATION_TIME_HRS } with ⟨l, old⟩
    have := hmFind_hmInsert s.entries_and_expirations key
      { entry := entry, expiration := now + BASE_EXPIRATION_TIME_HRS }
    rw [hins] at this
    cases old <;> simpa [hins] using this

/-- Witness for C3: a key at XOR-distance height 160 from the parent (the
maximal distance, far beyond EXPIRATION_DISTANCE_THRESHOLD = 5) still gets
the full base lifetime of 24 hours. -/
theorem store_expiration_constant_witness :
    hmFind ((Storage.new 0).store (2 ^ 159) (StorageEntry.Blob []) 0).1.entries_and_expirations
      (2 ^ 159) = some { entry := StorageEntry.Blob [], expiration := 24 } :=
  store_expiration_constant (Storage.new 0) (2 ^ 159) (StorageEntry.Blob []) 0
    (by decide)

/-- C4: when the storage already holds MAX_STORAGE entries, `store` returns
`StorageFull` and leaves the map untouched — for every key, including keys
already present in the map, since the capacity check precedes the upsert. -/
theorem store_full_rejects (s : Storage) (key : Hash) (entry : StorageEntry)
    (now : Int) (hfull : s.len = MAX_STORAGE) :
    s.store key entry now = (s, StoreResult.StorageFull) ∧
    (s.store key entry now).1.len = MAX_STORAGE := by
  rw [Storage.len] at hfull
  have h : s.store key entry now = (s, StoreResult.StorageFull) := by
    rw [Storage.store, if_pos (le_of_eq hfull.symm)]
  exact ⟨h, by rw [h, Storage.len]; exact hfull⟩

/-- Witness for C4 at a full storage; the key 5 is already present, so this
also exercises the update-of-existing-key case. -/
theorem store_full_rejects_witness :
    bigStorage.store 5 (StorageEntry.Blob [7]) 0 =
      (bigStorage, StoreResult.StorageFull) :=
  (store_full_rejects bigStorage 5 (StorageEntry.Blob [7]) 0
    (by rw [bigStorage, Storage.len]; simp)).1

/-! ### Claim theorems: reception pipeline -/

theorem receptionsCollect_shutdown (stream : List (Int × Update))
    (timeout : Option Int) (kind_filter : Option KindFilter)
    (sender_filter : Option (List Hash)) :
    receptionsCollect stream timeout kind_filter sender_filter true = [] := by
  cases stream with
  | nil => rfl
  | cons p rest =>
    obtain ⟨t, u⟩ := p
    simp only [receptionsCollect]
    by_cases h : timedOut timeout t = true
    · rw [if_pos h]
    · rw [if_neg h]
      simp

/-- C5: over a finite event stream, the sequence (hence the multiset) of
RPCs yielded by the reception iterator equals the received RPCs of the
stream that pass the kind and sender filters, truncated at the deadline and
at the first shutdown event; ticks are never yielded and nothing is yielded
past a shutdown. -/
theorem receptions_filtering (stream : List (Int × Update))
    (timeout : Option Int) (kind_filter : Option KindFilter)
    (sender_filter : Option (List Hash)) :
    receptionsCollect stream timeout kind_filter sender_filter false =
      receptionsSpecYields stream timeout kind_filter sender_filter := by
  induction stream with
  | nil => rfl
  | cons p rest ih =>
    obtain ⟨t, u⟩ := p
    simp only [receptionsCollect]
    by_cases ht : timedOut timeout t = true
    · rw [if_pos ht]
      simp [receptionsSpecYields, List.takeWhile_cons, ht]
    · rw [if_neg ht]
      cases u with
      | RpcReceived rpc =>
        by_cases hp : passesFilters kind_filter sender_filter rpc = true
        · simp only [receptionsSpecYields, List.takeWhile_cons, ht,
            Bool.not_false, Bool.false_eq_true, if_false, if_true, hp,
            List.filterMap_cons, List.filter_cons, decide_eq_true_eq] at ih ⊢
          simp [ht, hp, ih]
        · simp only [receptionsSpecYields, List.takeWhile_cons, ht,
            Bool.not_false, Bool.false_eq_true, if_false, if_true, hp,
            List.filterMap_cons, List.filter_cons, decide_eq_true_eq] at ih ⊢
          simp [ht, hp, ih]
      | Shutdown =>
        rw [receptionsCollect_shutdown]
        simp [receptionsSpecYields, List.takeWhile_cons, ht]
      | Tick =>
        simp only [receptionsSpecYields, List.takeWhile_cons, ht] at ih ⊢
        simp [ht, ih]

/-- C6: the claim (and the spec's error table) says a disconnected channel
ends the iteration exactly like a shutdown event. In the code the `None`
returned by the exhausted channel iterator falls into the catch-all match
arm `_ => ()`, so with no deadline configured and no shutdown observed the
loop polls the dead channel forever and `next` never returns — it does not
end the iteration. -/
theorem receptions_disconnected_spins (kind_filter : Option KindFilter)
    (sender_filter : Option (List Hash)) :
    receptionsNext [] none kind_filter sender_filter false =
      NextOutcome.diverges ∧
    receptionsNext [] none kind_filter sender_filter true =
      NextOutcome.ends := by
  exact ⟨rfl, rfl⟩

/-! ### Lemmas for the lookup dispatch -/

theorem mem_applyBlacklist_iff {bl : Option (List Hash)} {l : List NodeInfo}
    {x : NodeInfo} : x ∈ applyBlacklist bl l ↔ x ∈ l ∧ blOk bl x := by
  constructor
  · exact mem_applyBlacklist
  · rintro ⟨hx, hok⟩
    cases bl with
    | none => exact hx
    | some b =>
      rw [applyBlacklist, List.mem_filter]
      refine ⟨hx, by simpa using hok b rfl⟩

theorem eligible_bucket_of_ne_nil {t : Table}
    (hlen : t.buckets.length = HASH_SIZE) {bl : Option (List Hash)}
    (h : applyBlacklist bl (storedNodes t) ≠ []) :
    ∃ j, j < HASH_SIZE ∧ applyBlacklist bl (t.buckets.getD j []) ≠ [] := by
  obtain ⟨x, hx⟩ := List.exists_mem_of_ne_nil _ h
  obtain ⟨hxs, hok⟩ := mem_applyBlacklist hx
  obtain ⟨j, hj, hjb⟩ := (mem_storedNodes hlen).mp hxs
  exact ⟨j, hj, List.ne_nil_of_mem (mem_applyBlacklist_iff.mpr ⟨hjb, hok⟩)⟩

theorem bucket_applyBlacklist_eq_nil {t : Table}
    (hlen : t.buckets.length = HASH_SIZE) {bl : Option (List Hash)}
    (h : applyBlacklist bl (storedNodes t) = []) (j : Nat) :
    applyBlacklist bl (t.buckets.getD j []) = [] := by
  rcases Nat.lt_or_ge j HASH_SIZE with hj | hj
  · by_contra hne
    obtain ⟨x, hx⟩ := List.exists_mem_of_ne_nil _ hne
    obtain ⟨hxb, hok⟩ := mem_applyBlacklist hx
    have : x ∈ applyBlacklist bl (storedNodes t) :=
      mem_applyBlacklist_iff.mpr ⟨(mem_storedNodes hlen).mpr ⟨j, hj, hxb⟩, hok⟩
    rw [h] at this
    cases this
  · rw [List.getD_eq_default _ _ (by rw [hlen]; exact hj), applyBlacklist_nil]

/-- Characterization of an empty bounce-lookup result: there is nothing to
return exactly when the capacity `n` is zero or no stored peer survives the
blacklist. -/
theorem closest_eq_nil_iff (t : Table) (hWF : WF t) (id : Hash) (n : Nat)
    (bl : Option (List Hash)) :
    t.closest_n_nodes_to id n bl = [] ↔
      n = 0 ∨ applyBlacklist bl (storedNodes t) = [] := by
  rw [Table.closest_n_nodes_to]
  constructor
  · intro h
    by_contra hcon
    push_neg at hcon
    obtain ⟨hn, helig⟩ := hcon
    obtain ⟨j, hj, hjne⟩ := eligible_bucket_of_ne_nil hWF.1 helig
    exact (bounce_ne_nil hn _ [] j (mem_lookupOrder.mpr hj) hjne) h
  · intro h
    rcases h with rfl | helig
    · exact bounce_n_zero _
    · exact bounce_no_eligible _ []
        (fun j _ => bucket_applyBlacklist_eq_nil hWF.1 helig j)

theorem lookup_eq_myself {t : Table} {id : Hash} {n : Nat}
    {bl : Option (List Hash)} (h : id = t.parent_id) :
    t.lookup id n bl = LookupResult.Myself := by
  simp only [Table.lookup]
  rw [if_pos h]

theorem lookup_eq_found {t : Table} {id : Hash} {n : Nat}
    {bl : Option (List Hash)} {info : NodeInfo} (h1 : ¬ id = t.parent_id)
    (h2 : t.specific_node id = some info) :
    t.lookup id n bl = LookupResult.Found info := by
  simp only [Table.lookup]
  rw [if_neg h1, h2]

theorem lookup_eq_nothing {t : Table} {id : Hash} {n : Nat}
    {bl : Option (List Hash)} (h1 : ¬ id = t.parent_id)
    (h2 : t.specific_node id = none)
    (h3 : (t.closest_n_nodes_to id n bl).isEmpty = true) :
    t.lookup id n bl = LookupResult.Nothing := by
  simp only [Table.lookup]
  rw [if_neg h1, h2]
  simp only [Table.closest_n_nodes_to] at h3
  simp [h3]
  rw [Table.closest_n_nodes_to]
  exact List.isEmpty_iff.mp h3

theorem lookup_eq_closest {t : Table} {id : Hash} {n : Nat}
    {bl : Option (List Hash)} (h1 : ¬ id = t.parent_id)
    (h2 : t.specific_node id = none)
    (h3 : ¬ (t.closest_n_nodes_to id n bl).isEmpty = true) :
    t.lookup id n bl =
      LookupResult.ClosestNodes (t.closest_n_nodes_to id n bl) := by
  simp only [Table.lookup]
  rw [if_neg h1, h2]
  simp only [Table.closest_n_nodes_to] at h3
  simp [h3]
  rw [Table.closest_n_nodes_to]
  intro hnil
  exact h3 (by rw [hnil]; rfl)


/-! ### Claim theorems: routing lookups -/

/-- C2: when `lookup` answers with closest nodes on a well-formed table,
the returned list is sorted by ascending XOR distance to the target, its
length is at most `min n (number of stored peers surviving the blacklist)`,
and no blacklisted id appears in it. The global sortedness rests on the
bounce traversal (descending set-bit buckets, then ascending cleared-bit
buckets) visiting buckets in ascending distance order, proved in
`dist_lt_of_beforeRel` and `pairwise_lookupOrder`. -/
theorem lookup_closest_nodes_props (t : Table) (hWF : WF t) (id : Hash)
    (hid : id < 2 ^ HASH_SIZE) (n : Nat) (bl : Option (List Hash))
    (list : List NodeInfo)
    (h : t.lookup id n bl = LookupResult.ClosestNodes list) :
    list.Pairwise (distLe id) ∧
    list.length ≤ min n (applyBlacklist bl (storedNodes t)).length ∧
    (∀ b, bl = some b → ∀ x ∈ list, x.id ∉ b) := by
  by_cases hpar : id = t.parent_id
  · rw [lookup_eq_myself hpar] at h
    cases h
  · cases hs : t.specific_node id with
    | some info0 =>
      rw [lookup_eq_found hpar hs] at h
      cases h
    | none =>
      by_cases hemp : (t.closest_n_nodes_to id n bl).isEmpty = true
      · rw [lookup_eq_nothing hpar hs hemp] at h
        cases h
      · rw [lookup_eq_closest hpar hs hemp] at h
        injection h with h'
        subst h'
        obtain ⟨p1, p2, p3, p4⟩ := closest_n_nodes_to_props t hWF id n bl
        exact ⟨p1, Nat.le_min.mpr ⟨p2, p4⟩, fun b hb x hx => p3 x hx b hb⟩

/-- Witness for C2 on the spec's concrete scenario: looking up target 3
with n = 3 returns the peers with ids 2, 1, 4 (distances 1, 2, 7). -/
theorem lookup_closest_nodes_props_witness :
    ([⟨2, 0⟩, ⟨1, 0⟩, ⟨4, 0⟩] : List NodeInfo).Pairwise (distLe 3) ∧
    ([⟨2, 0⟩, ⟨1, 0⟩, ⟨4, 0⟩] : List NodeInfo).length ≤
      min 3 (applyBlacklist none (storedNodes bounceTable)).length ∧
    (∀ b, (none : Option (List Hash)) = some b →
      ∀ x ∈ ([⟨2, 0⟩, ⟨1, 0⟩, ⟨4, 0⟩] : List NodeInfo), x.id ∉ b) :=
  lookup_closest_nodes_props bounceTable (by decide) 3 (by decide) 3 none
    [⟨2, 0⟩, ⟨1, 0⟩, ⟨4, 0⟩] (by decide)

/-- C10, counterexample: the claim says `Nothing` is returned exactly when
the table is empty of eligible peers. With `n = 0` the result capacity is
zero, so `lookup` returns `Nothing` even though an eligible
(non-blacklisted) peer is stored. -/
theorem lookup_nothing_despite_peers_cex :
    singletonTable.lookup 2 0 none = LookupResult.Nothing ∧
    storedNodes singletonTable ≠ [] ∧
    applyBlacklist none (storedNodes singletonTable) ≠ [] := by decide

/-- C10, amended: on a well-formed table `lookup` returns `Myself` exactly
when the target is the parent id; `Found info` exactly when the target
differs from the parent and `info` is the stored node with that exact id;
otherwise `Nothing` exactly when `n = 0` or no stored peer survives the
blacklist, and `ClosestNodes` (with a nonempty list) in the remaining
cases. -/
theorem lookup_dispatch (t : Table) (hWF : WF t) (id : Hash)
    (hid : id < 2 ^ HASH_SIZE) (n : Nat) (bl : Option (List Hash)) :
    (t.lookup id n bl = LookupResult.Myself ↔ id = t.parent_id) ∧
    (∀ info, t.lookup id n bl = LookupResult.Found info ↔
      id ≠ t.parent_id ∧ info ∈ storedNodes t ∧ info.id = id) ∧
    (t.lookup id n bl = LookupResult.Nothing ↔
      id ≠ t.parent_id ∧ (∀ info ∈ storedNodes t, info.id ≠ id) ∧
      (n = 0 ∨ applyBlacklist bl (storedNodes t) = [])) ∧
    (∀ list, t.lookup id n bl = LookupResult.ClosestNodes list →
      list ≠ [] ∧ id ≠ t.parent_id ∧ (∀ info ∈ storedNodes t, info.id ≠ id) ∧
      n ≠ 0 ∧ applyBlacklist bl (storedNodes t) ≠ []) := by
  by_cases hpar : id = t.parent_id
  · rw [lookup_eq_myself hpar]
    refine ⟨⟨fun _ => hpar, fun _ => rfl⟩, ?_, ?_, ?_⟩
    · intro info
      constructor
      · intro he
        cases he
      · rintro ⟨hne, _, _⟩
        exact absurd hpar hne
    · constructor
      · intro he
        cases he
      · rintro ⟨hne, _, _⟩
        exact absurd hpar hne
    · intro list he
      cases he
  · cases hs : t.specific_node id with
    | some info0 =>
      have hst := (specific_node_iff hWF hid hpar).mp hs
      rw [lookup_eq_found hpar hs]
      refine ⟨?_, ?_, ?_, ?_⟩
      · constructor
        · intro he
          cases he
        · intro he
          exact absurd he hpar
      · intro info
        constructor
        · intro he
          injection he with he'
          subst he'
          exact ⟨hpar, hst.1, hst.2⟩
        · rintro ⟨_, hmem, hid'⟩
          have hh := (specific_node_iff hWF hid hpar).mpr ⟨hmem, hid'⟩
          rw [hs] at hh
          injection hh with hh'
          rw [hh']
      · constructor
        · intro he
          cases he
        · rintro ⟨_, hnone, _⟩
          exact absurd hst.2 (hnone info0 hst.1)
      · intro list he
        cases he
    | none =>
      have hnostore : ∀ info ∈ storedNodes t, info.id ≠ id := by
        intro info hmem he
        have hh := (specific_node_iff hWF hid hpar).mpr ⟨hmem, he⟩
        rw [hs] at hh
        cases hh
      by_cases hemp : (t.closest_n_nodes_to id n bl).isEmpty = true
      · rw [lookup_eq_nothing hpar hs hemp]
        have hnil : t.closest_n_nodes_to id n bl = [] := List.isEmpty_iff.mp hemp
        refine ⟨?_, ?_, ?_, ?_⟩
        · constructor
          · intro he
            cases he
          · intro he
            exact absurd he hpar
        · intro info
          constructor
          · intro he
            cases he
          · rintro ⟨_, hmem, hid'⟩
            exact absurd hid' (hnostore info hmem)
        · exact ⟨fun _ => ⟨hpar, hnostore,
            (closest_eq_nil_iff t hWF id n bl).mp hnil⟩, fun _ => rfl⟩
        · intro list he
          cases he
      · rw [lookup_eq_closest hpar hs hemp]
        have hnnil : t.closest_n_nodes_to id n bl ≠ [] :=
          fun hh => hemp (by rw [hh]; rfl)
        have hchar : ¬ (n = 0 ∨ applyBlacklist bl (storedNodes t) = []) :=
          fun hor => hnnil ((closest_eq_nil_iff t hWF id n bl).mpr hor)
        rw [not_or] at hchar
        refine ⟨?_, ?_, ?_, ?_⟩
        · constructor
          · intro he
            cases he
          · intro he
            exact absurd he hpar
        · intro info
          constructor
          · intro he
            cases he
          · rintro ⟨_, hmem, hid'⟩
            exact absurd hid' (hnostore info hmem)
        · constructor
          · intro he
            cases he
          · rintro ⟨_, _, hor⟩
            exact absurd hor (by rw [not_or]; exact hchar)
        · intro list he
          injection he with he'
          subst he'
          exact ⟨hnnil, hpar, hnostore, hchar.1, hchar.2⟩

/-- Witness for the amended C10: the stored peer 1 is found exactly, and a
missing target with positive n yields closest nodes. -/
theorem lookup_dispatch_witness :
    singletonTable.lookup 1 3 none = LookupResult.Found ⟨1, 0⟩ := by
  have h := lookup_dispatch singletonTable (by decide) 1 (by decide) 3 none
  exact (h.2.1 ⟨1, 0⟩).mpr ⟨by decide, by decide, rfl⟩



/-! ### Claim theorems: insertion and conflicts -/

theorem heightSpec_sub_one {d : Nat} (hd : d ≠ 0) :
    heightSpec d - 1 = log2fuel HASH_SIZE d := by
  rw [heightSpec, if_neg hd]
  omega

/-- C9: inserting a peer whose id differs from the parent id places it in
the bucket indexed by `(parent_id ^ id).height() - 1` (with the spec-level
1-based height), and in no other bucket; inserting the parent's own id is
silently ignored. -/
theorem bucket_placement (t : Table) (hWF : WF t) (info : NodeInfo)
    (hid : info.id < 2 ^ HASH_SIZE) :
    (info.id = t.parent_id → t.insert_node info = t) ∧
    (info.id ≠ t.parent_id →
      info ∈ (t.insert_node info).buckets.getD
        (heightSpec (t.parent_id ^^^ info.id) - 1) [] ∧
      (∀ j, j < HASH_SIZE → j ≠ heightSpec (t.parent_id ^^^ info.id) - 1 →
        ∀ p ∈ (t.insert_node info).buckets.getD j [], p.id ≠ info.id)) := by
  constructor
  · intro h
    exact insert_node_eq_of_none (bucket_for_node_none h)
  · intro hne
    have hxor0 : t.parent_id ^^^ info.id ≠ 0 :=
      fun h0 => hne (Nat.xor_eq_zero.mp h0).symm
    have hxorlt : t.parent_id ^^^ info.id < 2 ^ HASH_SIZE :=
      Nat.xor_lt_two_pow hWF.2.1 hid
    have hindexlt : log2fuel HASH_SIZE (t.parent_id ^^^ info.id) < HASH_SIZE :=
      log2fuel_lt_size hxor0 hxorlt
    rw [heightSpec_sub_one hxor0]
    have hshape : ∃ X, (t.insert_node info).buckets =
        t.buckets.set (log2fuel HASH_SIZE (t.parent_id ^^^ info.id))
          (X ++ [info]) := by
      by_cases hfull : ((t.buckets.getD (log2fuel HASH_SIZE (t.parent_id ^^^
          info.id)) []).filter
            (fun stored_info => decide (info.id ≠ stored_info.id))).length =
              BUCKET_DEPTH
      · obtain ⟨ev, rest, hfil, heq⟩ :=
          insert_node_eq_evict (bucket_for_node_some hne) hfull
        exact ⟨rest, by rw [heq]⟩
      · refine ⟨_, by rw [insert_node_eq_push (bucket_for_node_some hne) hfull]⟩
    obtain ⟨X, hX⟩ := hshape
    constructor
    · rw [hX, getD_set_self (by rw [hWF.1]; exact hindexlt)]
      exact List.mem_append_right _ (List.mem_singleton.mpr rfl)
    · intro j hj hjne p hp
      rw [hX, getD_set_ne (fun he => hjne he.symm)] at hp
      intro hpe
      refine hjne ?_
      have := ((hWF.2.2 j hj).1 p hp).2.2
      rw [hpe] at this
      rw [← this]

/-- Witness for C9: inserting peer 5 around parent 0 lands it in bucket
`height(5) - 1 = 2`, and inserting the parent's own id is a no-op. -/
theorem bucket_placement_witness :
    (⟨5, 7⟩ : NodeInfo) ∈ ((Table.new 0).insert_node ⟨5, 7⟩).buckets.getD
      (heightSpec ((0 : Nat) ^^^ 5) - 1) [] ∧
    (Table.new 0).insert_node ⟨0, 7⟩ = Table.new 0 := by
  constructor
  · exact ((bucket_placement (Table.new 0) (WF_new 0 (by decide)) ⟨5, 7⟩
      (by decide)).2 (by decide)).1
  · exact (bucket_placement (Table.new 0) (WF_new 0 (by decide)) ⟨0, 7⟩
      (by decide)).1 rfl

/-- C7: case analysis of `insert_node` on a well-formed table. An id
already present refreshes the entry (same bucket length, no conflict, the
entry now at the back); a full bucket evicts its front entry, records
exactly one conflict pairing it with the inserted peer and keeps length K;
otherwise the peer is pushed at the back. The bucket length never exceeds
K. -/
theorem insert_node_cases (t : Table) (hWF : WF t) (info : NodeInfo)
    (hid : info.id < 2 ^ HASH_SIZE) (hne : info.id ≠ t.parent_id) :
    ∃ index, t.bucket_for_node info.id = some index ∧
      (info.id ∈ (t.buckets.getD index []).map NodeInfo.id →
        ((t.insert_node info).buckets.getD index []).length =
          (t.buckets.getD index []).length ∧
        (t.insert_node info).conflicts = t.conflicts ∧
        ((t.insert_node info).buckets.getD index []).getLast? = some info) ∧
      (info.id ∉ (t.buckets.getD index []).map NodeInfo.id →
        (t.buckets.getD index []).length = BUCKET_DEPTH →
        ∃ evicted rest, t.buckets.getD index [] = evicted :: rest ∧
          (t.insert_node info).buckets.getD index [] = rest ++ [info] ∧
          (t.insert_node info).conflicts =
            t.conflicts ++ [{ evicted := evicted, inserted := info }]) ∧
      (info.id ∉ (t.buckets.getD index []).map NodeInfo.id →
        (t.buckets.getD index []).length ≠ BUCKET_DEPTH →
        (t.insert_node info).buckets.getD index [] =
          t.buckets.getD index [] ++ [info] ∧
        (t.insert_node info).conflicts = t.conflicts) ∧
      ((t.insert_node info).buckets.getD index []).length ≤ K := by
  have hxor0 : t.parent_id ^^^ info.id ≠ 0 :=
    fun h0 => hne (Nat.xor_eq_zero.mp h0).symm
  have hxorlt : t.parent_id ^^^ info.id < 2 ^ HASH_SIZE :=
    Nat.xor_lt_two_pow hWF.2.1 hid
  have hindexlt : log2fuel HASH_SIZE (t.parent_id ^^^ info.id) < HASH_SIZE :=
    log2fuel_lt_size hxor0 hxorlt
  have hsetlt : log2fuel HASH_SIZE (t.parent_id ^^^ info.id) <
      t.buckets.length := by
    rw [hWF.1]
    exact hindexlt
  have hpw := (hWF.2.2 _ hindexlt).2.1
  have holdlen := (hWF.2.2 _ hindexlt).2.2
  refine ⟨log2fuel HASH_SIZE (t.parent_id ^^^ info.id),
    bucket_for_node_some hne, ?_, ?_, ?_, ?_⟩
  · -- already present: refresh
    intro hpresent
    obtain ⟨x, hx, hxid⟩ := List.mem_map.mp hpresent
    have hflen := length_filter_of_mem_pairwise hpw hx hxid
    have hnotfull : ¬ ((t.buckets.getD (log2fuel HASH_SIZE (t.parent_id ^^^
        info.id)) []).filter
          (fun stored_info => decide (info.id ≠ stored_info.id))).length =
            BUCKET_DEPTH := by
      rw [BUCKET_DEPTH, K] at holdlen ⊢
      omega
    rw [insert_node_eq_push (bucket_for_node_some hne) hnotfull]
    rw [getD_set_self hsetlt]
    refine ⟨?_, rfl, List.getLast?_concat _⟩
    rw [List.length_append, List.length_singleton]
    omega
  · -- absent, bucket full: eviction
    intro habsent hfullb
    have hall : ∀ x ∈ t.buckets.getD (log2fuel HASH_SIZE (t.parent_id ^^^
        info.id)) [], x.id ≠ info.id := by
      intro x hx he
      exact habsent (List.mem_map.mpr ⟨x, hx, he⟩)
    have hfil := filter_eq_self_of_not_mem hall
    have hfull : ((t.buckets.getD (log2fuel HASH_SIZE (t.parent_id ^^^
        info.id)) []).filter
          (fun stored_info => decide (info.id ≠ stored_info.id))).length =
            BUCKET_DEPTH := by
      rw [hfil]
      exact hfullb
    obtain ⟨ev, rest, hfl, heq⟩ :=
      insert_node_eq_evict (bucket_for_node_some hne) hfull
    refine ⟨ev, rest, by rw [← hfil]; exact hfl, ?_, by rw [heq]⟩
    rw [heq]
    exact getD_set_self hsetlt _
  · -- absent, bucket not full: plain push
    intro habsent hnotfullb
    have hall : ∀ x ∈ t.buckets.getD (log2fuel HASH_SIZE (t.parent_id ^^^
        info.id)) [], x.id ≠ info.id := by
      intro x hx he
      exact habsent (List.mem_map.mpr ⟨x, hx, he⟩)
    have hfil := filter_eq_self_of_not_mem hall
    have hnotfull : ¬ ((t.buckets.getD (log2fuel HASH_SIZE (t.parent_id ^^^
        info.id)) []).filter
          (fun stored_info => decide (info.id ≠ stored_info.id))).length =
            BUCKET_DEPTH := by
      rw [hfil]
      exact hnotfullb
    rw [insert_node_eq_push (bucket_for_node_some hne) hnotfull,
      getD_set_self hsetlt, hfil]
    exact ⟨rfl, rfl⟩
  · -- the bucket bound is preserved
    exact ((WF_insert hWF hid).2.2 _ hindexlt).2.2

/-- Witness for C7: pushing a fresh peer into the empty bucket of a new
table appends it at the back and records no conflict. -/
theorem insert_node_cases_witness :
    ((Table.new 0).insert_node ⟨5, 7⟩).buckets.getD 2 [] = [⟨5, 7⟩] ∧
    ((Table.new 0).insert_node ⟨5, 7⟩).conflicts = [] := by
  obtain ⟨index, hbk, _, _, hpush, _⟩ :=
    insert_node_cases (Table.new 0) (WF_new 0 (by decide)) ⟨5, 7⟩
      (by decide) (by decide)
  have hidx : index = 2 := by
    rw [bucket_for_node_some (by decide)] at hbk
    injection hbk with hbk'
    rw [← hbk']
    rfl
  subst hidx
  obtain ⟨h1, h2⟩ := hpush (by decide) (by decide)
  rw [h1, h2]
  exact ⟨by rw [new_buckets_getD]; rfl, rfl⟩



/-- C8, counterexample: the claimed invariant — every recorded conflict's
`inserted` peer is still present in its bucket and `revert_conflict` never
panics — fails on a reachable state: after the insertions of
`evictedInsertedTable` the first recorded conflict still pairs evicted 64
with inserted 84, but 84 has been evicted since, and `revert_conflict` on
that record panics (the source's `unwrap` of a failed `find`, modelled as
`none`). -/
theorem conflict_inserted_evicted_cex :
    evictedInsertedTable.conflicts.head? =
      some { evicted := ⟨64, 0⟩, inserted := ⟨84, 0⟩ } ∧
    (⟨84, 0⟩ : NodeInfo) ∉ evictedInsertedTable.buckets.getD 6 [] ∧
    evictedInsertedTable.revert_conflict
      { evicted := ⟨64, 0⟩, inserted := ⟨84, 0⟩ } = none := by decide

/-- C8, amended: as long as the `inserted` peer of a conflict is still
present in its bucket, `revert_conflict` succeeds without panicking,
replaces the first entry carrying that id by the `evicted` peer, and leaves
the bucket length unchanged. (A later insertion can evict the inserted
peer, after which reverting that conflict would panic, as the
counterexample shows.) -/
theorem revert_conflict_of_present (t : Table) (hWF : WF t)
    (c : EvictionConflict) (hid : c.inserted.id < 2 ^ HASH_SIZE)
    (hne : c.inserted.id ≠ t.parent_id)
    (hpresent : ∃ x ∈ t.buckets.getD
      (log2fuel HASH_SIZE (t.parent_id ^^^ c.inserted.id)) [],
      c.inserted.id = x.id) :
    ∃ t', t.revert_conflict c = some t' ∧
      (t'.buckets.getD (log2fuel HASH_SIZE (t.parent_id ^^^ c.inserted.id))
        []).length =
        (t.buckets.getD (log2fuel HASH_SIZE (t.parent_id ^^^ c.inserted.id))
          []).length ∧
      c.evicted ∈ t'.buckets.getD
        (log2fuel HASH_SIZE (t.parent_id ^^^ c.inserted.id)) [] := by
  have hxor0 : t.parent_id ^^^ c.inserted.id ≠ 0 :=
    fun h0 => hne (Nat.xor_eq_zero.mp h0).symm
  have hxorlt : t.parent_id ^^^ c.inserted.id < 2 ^ HASH_SIZE :=
    Nat.xor_lt_two_pow hWF.2.1 hid
  have hindexlt : log2fuel HASH_SIZE (t.parent_id ^^^ c.inserted.id) <
      HASH_SIZE := log2fuel_lt_size hxor0 hxorlt
  have hsetlt : log2fuel HASH_SIZE (t.parent_id ^^^ c.inserted.id) <
      t.buckets.length := by
    rw [hWF.1]
    exact hindexlt
  cases hfind : (t.buckets.getD (log2fuel HASH_SIZE (t.parent_id ^^^
      c.inserted.id)) []).findIdx?
        (fun info => decide (c.inserted.id = info.id)) with
  | none =>
    obtain ⟨x, hx, hxid⟩ := hpresent
    have := List.findIdx?_eq_none_iff.mp hfind x hx
    rw [hxid] at this
    simp at this
  | some k =>
    have hk : k < (t.buckets.getD (log2fuel HASH_SIZE (t.parent_id ^^^
        c.inserted.id)) []).length :=
      (List.findIdx?_eq_some_iff_findIdx_eq.mp hfind).1
    refine ⟨{ t with buckets := (t.buckets.set
        (log2fuel HASH_SIZE (t.parent_id ^^^ c.inserted.id))
        ((t.buckets.getD (log2fuel HASH_SIZE (t.parent_id ^^^ c.inserted.id))
          []).set k c.evicted)) }, ?_, ?_, ?_⟩
    · rw [Table.revert_conflict, bucket_for_node_some hne]
      dsimp only
      rw [hfind]
    · rw [getD_set_self hsetlt]
      exact List.length_set _ _ _
    · rw [getD_set_self hsetlt]
      have hk' : k < ((t.buckets.getD (log2fuel HASH_SIZE (t.parent_id ^^^
          c.inserted.id)) []).set k c.evicted).length := by
        rw [List.length_set]
        exact hk
      have heq := List.getElem_set_self hk'
      have hmem := List.getElem_mem hk'
      rw [heq] at hmem
      exact hmem



/-- Witness for the amended C8: reverting the conflict while the inserted
peer is still present succeeds. -/
theorem revert_conflict_of_present_witness :
    (freshConflictTable.revert_conflict
      { evicted := ⟨64, 0⟩, inserted := ⟨84, 0⟩ }).isSome = true := by
  obtain ⟨t', ht', _, _⟩ := revert_conflict_of_present freshConflictTable
    (by decide) { evicted := ⟨64, 0⟩, inserted := ⟨84, 0⟩ } (by decide)
    (by decide) (by decide)
  rw [ht']
  rfl


end Subotai
